import Mathlib

/-!
Verification of the interpolate-bad-channels preprocessing stage and of the
analyzer extension engine of this repository, by shallow embedding into Lean.

Traces arrays are embedded as `Mat := List (List ℚ)` (rows = frames, columns
= channels); numpy buffers and views are made explicit through a small heap of
matrix cells, so that numpy's aliasing behaviour (views into a parent buffer,
`copy()`, in-place column assignment) is modelled faithfully.
-/

/-- A 2-D numeric array: list of rows, each row a list of rationals. -/
abbrev Mat := List (List ℚ)

/-- Dot product of two rows (zip-truncating, as numpy requires equal length). -/
def dot (xs ys : List ℚ) : ℚ := (List.zipWith (fun a b => a * b) xs ys).sum

/-- Column `j` of a matrix (out-of-range entries read as 0). -/
def matCol (B : Mat) (j : Nat) : List ℚ := B.map (fun r => r.getD j 0)

/-- Number of columns of a matrix, read off its first row. -/
def matNumCols (B : Mat) : Nat := (B.headD []).length

/-- Matrix product `A @ B`: entry (i, j) is the dot product of row i of A with
column j of B. -/
def matMul (A B : Mat) : Mat :=
  A.map (fun row => (List.range (matNumCols B)).map (fun j => dot row (matCol B j)))

/-- Embedding of `row[cols] = vals` for a single row: numpy fancy-index assignment, applied
left to right (so with duplicate indices the last value wins). -/
def setRowCols : List ℚ → List Nat → List ℚ → List ℚ
  | row, c :: cs, v :: vs => setRowCols (row.set c v) cs vs
  | row, _, _ => row

/-- Embedding of `m[:, cols] = vals`: fancy-index column assignment applied to each row. -/
def setColsMat : Mat → List Nat → Mat → Mat
  | [], _, _ => []
  | m, _, [] => m
  | row :: m, cols, vrow :: vals => setRowCols row cols vrow :: setColsMat m cols vals

/-- A heap of array buffers; numpy array objects are references into it. -/
structure Heap where
  cells : List Mat
deriving Repr

/-- Read the buffer behind reference `r`. -/
def Heap.get (h : Heap) (r : Nat) : Mat := h.cells.getD r []

/-- Overwrite the buffer behind reference `r`. -/
def Heap.set (h : Heap) (r : Nat) (m : Mat) : Heap := ⟨h.cells.set r m⟩

/-- Allocate a fresh buffer holding `m`; returns its reference. -/
def Heap.alloc (h : Heap) (m : Mat) : Nat × Heap := (h.cells.length, ⟨h.cells ++ [m]⟩)

/-- A numpy view: a window of rows `[rowStart, rowEnd)` of the buffer behind
`ref` (all columns).  Reading copies nothing; writing goes through to the
underlying buffer. -/
structure View where
  ref : Nat
  rowStart : Nat
  rowEnd : Nat
deriving Repr

/-- Materialize the values a view denotes. -/
def View.read (h : Heap) (v : View) : Mat :=
  ((h.get v.ref).drop v.rowStart).take (v.rowEnd - v.rowStart)

/-- Embedding of `view[:, cols] = vals`: in-place fancy-index assignment through a view;
rows of the underlying buffer outside the view's window are untouched. -/
def View.writeCols (h : Heap) (v : View) (cols : List Nat) (vals : Mat) : Heap :=
  let m := h.get v.ref
  h.set v.ref
    (m.take v.rowStart ++
      setColsMat ((m.drop v.rowStart).take (v.rowEnd - v.rowStart)) cols vals ++
      m.drop v.rowEnd)

/-- Embedding of `arr.copy()`: allocate a fresh buffer with the view's values and return a
view of the whole fresh buffer. -/
def npCopy (h : Heap) (v : View) : View × Heap :=
  let data := v.read h
  let (r, h1) := h.alloc data
  (⟨r, 0, data.length⟩, h1)

/-- A parent recording segment: an in-memory buffer of shape
(numFrames × numChannels). -/
structure ParentSegment where
  buf : Nat
  numFrames : Nat
  numChannels : Nat
deriving Repr

/-- Embedding of `parent_recording_segment.get_traces(start_frame, end_frame,
slice(None))`:
returns a view of rows `[start_frame, end_frame)` of the parent's buffer, all
channels — no copy is made by the parent. -/
def ParentSegment.get_traces (p : ParentSegment) (start_frame end_frame : Nat) : View :=
  ⟨p.buf, start_frame, end_frame⟩

/-- The state of `InterpolateBadChannelsSegment`: wraps one parent segment, capturing the
bad-channel index list and the precomputed weight matrix at construction. -/
structure InterpolateBadChannelsSegment where
  parent_recording_segment : ParentSegment
  bad_channel_indexes : List Nat
  weights : Mat
deriving Repr

/-- Embedding of `InterpolateBadChannelsSegment.get_traces(start_frame,
end_frame, channel_indices)` as written in the source: pulls ALL channels from the parent
(`slice(None)`), copies, then assigns `traces[:, bad] = traces @ weights` in
place on the copy, and returns the copy's value.  Note that the
`channel_indices` argument is accepted but never used by the source code. -/
def InterpolateBadChannelsSegment.get_traces (seg : InterpolateBadChannelsSegment)
    (h : Heap) (start_frame end_frame : Nat) (channel_indices : List Nat) : Mat × Heap :=
  let _ := channel_indices
  let traces0 := seg.parent_recording_segment.get_traces start_frame end_frame
  let (traces, h1) := npCopy h traces0
  let prod := matMul (traces.read h1) seg.weights
  let h2 := View.writeCols h1 traces seg.bad_channel_indexes prod
  (traces.read h2, h2)

/-!
## Construction of the `InterpolateBadChannels` stage

`np.unique` (sort + deduplicate), `np.diff`, and `scipy.stats.mode`
(most frequent value; ties broken towards the smallest) are embedded below,
following their documented semantics, so that
`InterpolateBadChannels.get_recommended_sigma_um` can be translated verbatim.
-/

/-- Insert a value into a sorted duplicate-free list, keeping it sorted and
duplicate-free. -/
def insertUnique (v : ℚ) : List ℚ → List ℚ
  | [] => [v]
  | x :: xs => if v < x then v :: x :: xs else if v = x then x :: xs else x :: insertUnique v xs

/-- Embedding of `np.unique`: the sorted list of distinct values. -/
def uniqueSorted (xs : List ℚ) : List ℚ := xs.foldr insertUnique []

/-- Embedding of `np.diff`: consecutive differences `a[i+1] - a[i]`. -/
def diffList : List ℚ → List ℚ
  | x :: y :: rest => (y - x) :: diffList (y :: rest)
  | _ => []

/-- Number of occurrences of `v` in `xs`. -/
def countOcc (xs : List ℚ) (v : ℚ) : Nat := (xs.filter (fun x => x = v)).length

/-- Scan candidates (ascending), keeping the current best; a strictly larger
count is needed to displace it, so ties go to the smallest value. -/
def modeAux (xs : List ℚ) : List ℚ → ℚ → ℚ
  | [], best => best
  | v :: rest, best => modeAux xs rest (if countOcc xs best < countOcc xs v then v else best)

/-- Embedding of `scipy.stats.mode(xs, keepdims=False)[0]`: the most frequent value of
`xs`, the smallest one in case of a tie (0 on empty input, never used). -/
def modeOf (xs : List ℚ) : ℚ :=
  match uniqueSorted xs with
  | [] => 0
  | c :: cs => modeAux xs cs c

/-- Embedding of `InterpolateBadChannels.get_recommended_sigma_um`: the most common distance
between consecutive distinct y-coordinates of the probe contacts
(`scipy.stats.mode(np.diff(np.unique(y)), keepdims=False)[0]`). -/
def get_recommended_sigma_um (contact_positions : List (ℚ × ℚ)) : ℚ :=
  modeOf (diffList (uniqueSorted (contact_positions.map Prod.snd)))

/-- Sum of the kernel over the good channels, for one bad channel `b`. -/
def goodKernelSum (κ : ℚ × ℚ → ℚ × ℚ → ℚ) (contact_positions : List (ℚ × ℚ))
    (bad_channel_indexes : List Nat) (b : Nat) : ℚ :=
  (((List.range contact_positions.length).filter
      (fun g => g ∉ bad_channel_indexes)).map
    (fun g => κ (contact_positions.getD g (0, 0)) (contact_positions.getD b (0, 0)))).sum

/-- Modelled from the spec: `preprocessing_tools.get_kriging_bad_channel_weights`
is not among the provided sources, only its caller is.  Per the spec, for each
bad channel `b` and good channel `g` the weight is
`w(b, g) = exp(-(dist(b, g) / sigma_um) ^ p)` normalized so the weights for `b`
sum to 1 over good channels, and the matrix has shape
(num_channels, num_bad_channels) so that `traces @ weights` yields the
interpolated bad columns.  The unnormalized Gaussian kernel
`exp(-(dist(g, b) / sigma_um) ^ p)` — a strictly positive function of the two
contact positions — is kept abstract as a parameter `κ`, since its
transcendental floating-point formula is not expressible exactly; every
property at stake (shape, normalization, zero rows) holds for any strictly
positive kernel. -/
def get_kriging_bad_channel_weights (κ : ℚ × ℚ → ℚ × ℚ → ℚ)
    (contact_positions : List (ℚ × ℚ)) (bad_channel_indexes : List Nat) : Mat :=
  (List.range contact_positions.length).map (fun c =>
    bad_channel_indexes.map (fun b =>
      if c ∈ bad_channel_indexes then 0
      else κ (contact_positions.getD c (0, 0)) (contact_positions.getD b (0, 0)) /
        goodKernelSum κ contact_positions bad_channel_indexes b))

/-- A probe: contact positions (x, y) in physical units named by `si_units`. -/
structure Probe where
  contact_positions : List (ℚ × ℚ)
  si_units : String
deriving Repr

/-- The slice of a recording the interpolation stage touches: the optional
probe (`get_property("contact_vector")` is `None` exactly when no probe is
attached, and `get_probe()` then fails) and the parent segments. -/
structure Recording where
  probe : Option Probe
  recording_segments : List ParentSegment
deriving Repr

/-- The caller's `bad_channel_indexes` argument, with its Python dynamic type:
either a genuine `np.ndarray` (a reference to an index-array object) or some
other sequence. -/
inductive BadChannelArg where
  | ndarray (ref : Nat)
  | otherSequence (xs : List Nat)
deriving Repr

/-- A numpy integer-array object: its data and its `writeable` flag. -/
structure IdxArray where
  data : List Nat
  writeable : Bool
deriving Repr

/-- The heap of index-array objects. -/
structure IdxHeap where
  cells : List IdxArray
deriving Repr

/-- Read the index array behind reference `r`. -/
def IdxHeap.get (h : IdxHeap) (r : Nat) : IdxArray := h.cells.getD r ⟨[], true⟩

/-- Embedding of `arr.setflags(write=w)` on the array behind reference `r`. -/
def IdxHeap.setWriteable (h : IdxHeap) (r : Nat) (w : Bool) : IdxHeap :=
  ⟨h.cells.set r { h.get r with writeable := w }⟩

/-- The exceptions `InterpolateBadChannels.check_inputs` can raise. -/
inductive ConstructError where
  | typeError (msg : String)
  | valueError (msg : String)
  | notImplementedError (msg : String)
deriving Repr, DecidableEq

/-- Embedding of `InterpolateBadChannels.check_inputs`: type check on the bad-channel
argument, then probe-presence check, then coordinate-units check, in source
order with early exit. -/
def check_inputs (recording : Recording) (bad : BadChannelArg) :
    Except ConstructError Unit :=
  match bad with
  | .otherSequence _ => .error (.typeError "Bad channel indexes must be a numpy array.")
  | .ndarray _ =>
    match recording.probe with
    | none => .error (.valueError
        "A probe must be attached to use bad channel interpolation. Use set_probe(...)")
    | some probe =>
      if probe.si_units ≠ "um" then
        .error (.notImplementedError "Channel spacing units must be um")
      else .ok ()

/-- The constructed `InterpolateBadChannels` stage. -/
structure InterpolateBadChannels where
  bad_channel_ref : Nat
  sigma_um : ℚ
  p : ℚ
  weights : Mat
  recording_segments : List InterpolateBadChannelsSegment
deriving Repr

/-- Embedding of `InterpolateBadChannels.__init__`: validates inputs (aborting on the first
failure, before any weight computation or segment wrapping), defaults
`sigma_um` via `get_recommended_sigma_um` when it is `None`, computes the
weight matrix, freezes the caller's index array (`setflags(write=False)`), and
wraps every parent segment.  Returns the construction outcome together with
the index-array heap after any side effect; on error the heap is returned
unchanged.  The kernel `κ` stands for the Gaussian kernel as in
`get_kriging_bad_channel_weights`. -/
def interpolate_bad_channels_init (κ : ℚ × ℚ → ℚ × ℚ → ℚ) (recording : Recording)
    (bad : BadChannelArg) (sigma_um : Option ℚ) (p : ℚ) (ih : IdxHeap) :
    Except ConstructError InterpolateBadChannels × IdxHeap :=
  match check_inputs recording bad with
  | .error e => (.error e, ih)
  | .ok () =>
    match bad, recording.probe with
    | .ndarray r, some probe =>
      let contact_positions := probe.contact_positions
      let sigma := sigma_um.getD (get_recommended_sigma_um contact_positions)
      let badData := (ih.get r).data
      let weights := get_kriging_bad_channel_weights κ contact_positions badData
      let ih1 := ih.setWriteable r false
      let segs := recording.recording_segments.map
        (fun ps => InterpolateBadChannelsSegment.mk ps badData weights)
      (.ok ⟨r, sigma, p, weights, segs⟩, ih1)
    | _, _ => (.error (.typeError "unreachable"), ih)

/-!
## Extension registry, dependency resolution, analyzer projection

The extension engine (`SortingAnalyzer.compute`, `select_units`) is exercised
by the provided test sources but its implementation is not among them, so it
is modelled from the spec below.
-/

/-- A parameter assignment for one extension computation. -/
abbrev Params := List (String × ℚ)

/-- An entry of the extension registry: a unique name, the declared dependency
names (a name may encode an "A|B" disjunction of alternatives), and the
default parameters used when the extension is computed as a dependency. -/
structure ExtDef where
  name : String
  depend_on : List String
  defaults : Params
deriving Repr

/-- The analyzer's extension cache: computed extensions by name, with the
parameters they were computed with. -/
abbrev ExtCache := List (String × Params)

/-- Is extension `n` present in the cache? -/
def cachedExt (cache : ExtCache) (n : String) : Bool := cache.any (fun e => e.1 = n)

/-- Store a result under `n`, overwriting any prior entry unconditionally. -/
def insertEntry (cache : ExtCache) (n : String) (p : Params) : ExtCache :=
  if cachedExt cache n then cache.map (fun e => if e.1 = n then (n, p) else e)
  else cache ++ [(n, p)]

/-- Look a name up in the registry (first match). -/
def findExt (reg : List ExtDef) (n : String) : Option ExtDef :=
  reg.find? (fun e => e.name = n)

/-- Split a dependency name on the bar character into its alternatives. -/
def splitBarAux : List Char → List Char → List String
  | [], acc => [String.mk acc.reverse]
  | c :: cs, acc =>
    if c = '|' then String.mk acc.reverse :: splitBarAux cs []
    else splitBarAux cs (c :: acc)

/-- The alternatives a dependency name encodes ("A|B" yields ["A", "B"]; a
plain name yields just itself). -/
def splitBar (s : String) : List String := splitBarAux s.data []

/-- The first listed alternative of a dependency name. -/
def firstAlt (dep : String) : String := (splitBar dep).headD dep

/-- Is some alternative of the dependency name already cached? -/
def hasCachedAlt (cache : ExtCache) (dep : String) : Bool :=
  (splitBar dep).any (fun a => cachedExt cache a)

/-- Modelled from the spec: compute a dependency by name with the default
parameters its registry entry declares (`NameError` on an unknown name),
through the compute callback `cmp`. -/
def computeDep (reg : List ExtDef) (cmp : ExtCache → String → Params → Except String ExtCache)
    (cache : ExtCache) (n : String) : Except String ExtCache :=
  match findExt reg n with
  | none => .error "NameError"
  | some ext => cmp cache n ext.defaults

/-- Modelled from the spec: satisfy one declared dependency — if some
alternative of its name is already cached, leave the cache untouched;
otherwise compute the first listed alternative with its defaults. -/
def resolveOneDep (reg : List ExtDef) (cmp : ExtCache → String → Params → Except String ExtCache)
    (cache : ExtCache) (dep : String) : Except String ExtCache :=
  if hasCachedAlt cache dep then .ok cache
  else computeDep reg cmp cache (firstAlt dep)

/-- Satisfy a list of declared dependencies left to right. -/
def resolveDepsWith (reg : List ExtDef)
    (cmp : ExtCache → String → Params → Except String ExtCache) :
    ExtCache → List String → Except String ExtCache
  | cache, [] => .ok cache
  | cache, dep :: rest =>
    match resolveOneDep reg cmp cache dep with
    | .error e => .error e
    | .ok c1 => resolveDepsWith reg cmp c1 rest

/-- Modelled from the spec: `SortingAnalyzer.compute` is exercised but not
included in the provided sources.  Computing extension `name` first ensures
every declared dependency is present in the cache (computing missing ones with
their default parameters, resolving "A|B" disjunctions to the first
alternative unless one is already cached), then stores the result under
`name`, overwriting unconditionally.  The walk recurses through dependencies;
`fuel` bounds the recursion depth, and exhausting it is the `CycleError` of a
defective (cyclic) dependency graph. -/
def compute_extension (reg : List ExtDef) :
    Nat → ExtCache → String → Params → Except String ExtCache
  | 0, _, _, _ => .error "CycleError"
  | Nat.succ fuel, cache, name, params =>
    match findExt reg name with
    | none => .error "NameError"
    | some ext =>
      match resolveDepsWith reg (fun c n p => compute_extension reg fuel c n p)
          cache ext.depend_on with
      | .error e => .error e
      | .ok c1 => .ok (insertEntry c1 name params)

/-- One row of the immutable spike table. -/
structure SpikeRow where
  sample_index : Nat
  unit_index : Nat
  segment_index : Nat
deriving Repr, DecidableEq

/-- A named numeric field of an extension result: indexed per unit (parallel
to the analyzer's unit ids) or per spike (parallel to the spike table). -/
inductive FieldData where
  | perUnit (vals : List ℚ)
  | perSpike (vals : List ℚ)
deriving Repr, DecidableEq

/-- An extension result: a mapping from field names to arrays. -/
structure ExtResult where
  fields : List (String × FieldData)
deriving Repr, DecidableEq

/-- The analyzer state `select_units` acts on: unit ids (a stable bijection
with dense 0-based unit indices), the spike table, and the extension cache. -/
structure Analyzer where
  unit_ids : List Nat
  spikes : List SpikeRow
  cache : List (String × ExtResult)
deriving Repr, DecidableEq

/-- The dense index of a unit id (position in the analyzer's unit-id list). -/
def idIndex (unit_ids : List Nat) (uid : Nat) : Nat :=
  unit_ids.findIdx (fun x => x = uid)

/-- Modelled from the spec: project one extension field onto a unit subset —
per-unit fields are reindexed by the subset (in subset order), per-spike
fields are filtered to the spikes whose unit is in the subset. -/
def projectField (an : Analyzer) (subset : List Nat) : FieldData → FieldData
  | .perUnit vals => .perUnit (subset.map (fun uid => vals.getD (idIndex an.unit_ids uid) 0))
  | .perSpike vals => .perSpike
      (((an.spikes.zip vals).filter
          (fun sv => decide (an.unit_ids.getD sv.1.unit_index 0 ∈ subset))).map Prod.snd)

/-- Modelled from the spec: `SortingAnalyzer.select_units` is exercised but
not included in the provided sources.  It builds a new analyzer scoped to the
given unit subset (order preserved as given): spikes are filtered to units in
the subset with their unit indices remapped to the new positions, and every
cached extension field is projected; the original analyzer is left
untouched. -/
def select_units (an : Analyzer) (subset : List Nat) : Analyzer :=
  { unit_ids := subset
    spikes := (an.spikes.filter
        (fun s => decide (an.unit_ids.getD s.unit_index 0 ∈ subset))).map
      (fun s => { s with unit_index := idIndex subset (an.unit_ids.getD s.unit_index 0) })
    cache := an.cache.map (fun e =>
      (e.1, ExtResult.mk (e.2.fields.map (fun f => (f.1, projectField an subset f.2))))) }

/-- Well-formedness of one extension field relative to an analyzer: per-unit
arrays are parallel to the unit ids, per-spike arrays to the spike table. -/
def fieldWF (an : Analyzer) : FieldData → Prop
  | .perUnit vals => vals.length = an.unit_ids.length
  | .perSpike vals => vals.length = an.spikes.length

/-!
## Heap and array lemmas
-/

theorem Heap.get_alloc_self (h : Heap) (m : Mat) :
    (h.alloc m).2.get (h.alloc m).1 = m := by
  simp [Heap.get, Heap.alloc, List.getD, List.getElem?_concat_length]

theorem Heap.get_alloc_lt (h : Heap) (m : Mat) (r : Nat) (hr : r < h.cells.length) :
    (h.alloc m).2.get r = h.get r := by
  simp [Heap.get, Heap.alloc, List.getD, List.getElem?_append_left hr]

theorem Heap.get_set_self (h : Heap) (r : Nat) (m : Mat) (hr : r < h.cells.length) :
    (h.set r m).get r = m := by
  simp [Heap.get, Heap.set, List.getD, List.getElem?_set_self, hr]

theorem Heap.get_set_ne (h : Heap) (r r2 : Nat) (m : Mat) (hne : r2 ≠ r) :
    (h.set r m).get r2 = h.get r2 := by
  simp [Heap.get, Heap.set, List.getD, List.getElem?_set_ne (Ne.symm hne)]

theorem View.read_congr (h h2 : Heap) (v : View) (hget : h2.get v.ref = h.get v.ref) :
    View.read h2 v = View.read h v := by
  simp [View.read, hget]

theorem setColsMat_length (cols : List Nat) :
    ∀ (m vals : Mat), (setColsMat m cols vals).length = m.length
  | [], _ => by cases cols <;> simp [setColsMat]
  | row :: m, [] => by simp [setColsMat]
  | row :: m, vrow :: vals => by
    simp [setColsMat, setColsMat_length cols m vals]

theorem get_traces_val (seg : InterpolateBadChannelsSegment) (h : Heap)
    (s e : Nat) (chans : List Nat) :
    (seg.get_traces h s e chans).1 =
      setColsMat (View.read h (seg.parent_recording_segment.get_traces s e))
        seg.bad_channel_indexes
        (matMul (View.read h (seg.parent_recording_segment.get_traces s e)) seg.weights) := by
  set T := View.read h (seg.parent_recording_segment.get_traces s e) with hT
  show (let traces0 := seg.parent_recording_segment.get_traces s e
    let p := npCopy h traces0
    let prod := matMul (p.1.read p.2) seg.weights
    let h2 := View.writeCols p.2 p.1 seg.bad_channel_indexes prod
    (p.1.read h2, h2)).1 = _
  have halloc : (h.alloc T).2.get (h.alloc T).1 = T := Heap.get_alloc_self h T
  simp only [npCopy, ← hT]
  have hr1 : View.read (h.alloc T).2 ⟨(h.alloc T).1, 0, T.length⟩ = T := by
    simp [View.read, halloc]
  simp only [hr1]
  have hlen : (h.alloc T).1 < (h.alloc T).2.cells.length := by
    simp [Heap.alloc]
  simp only [View.writeCols, halloc, View.read, Heap.get_set_self _ _ _ hlen]
  simp [setColsMat_length]

theorem get_traces_heap_preserved (seg : InterpolateBadChannelsSegment) (h : Heap)
    (s e : Nat) (chans : List Nat) (r : Nat) (hr : r < h.cells.length) :
    ((seg.get_traces h s e chans).2).get r = h.get r := by
  show (let traces0 := seg.parent_recording_segment.get_traces s e
    let p := npCopy h traces0
    let prod := matMul (p.1.read p.2) seg.weights
    let h2 := View.writeCols p.2 p.1 seg.bad_channel_indexes prod
    (p.1.read h2, h2)).2.get r = h.get r
  simp only [npCopy, View.writeCols]
  have hne : r ≠ (h.alloc (View.read h (seg.parent_recording_segment.get_traces s e))).1 := by
    simp only [Heap.alloc]
    omega
  rw [Heap.get_set_ne _ _ _ _ hne, Heap.get_alloc_lt _ _ _ hr]

/-!
## Claims C1, C2, C9 (pull semantics of the interpolation segment)
-/

/-- C1: the claim says `get_traces(start, end, channel_selection)` returns an
array of shape `(end-start, len(channel_selection))`, its columns exactly the
requested channels in the requested order.  The source code ignores
`channel_indices` — it pulls the parent with `slice(None)` and never selects
columns — so on a 2-channel segment a request for just channel 0 still returns
both columns: the claim fails and the code contradicts the framework-wide
`get_traces` contract the spec states. -/
theorem get_traces_ignores_channel_indices :
    ((InterpolateBadChannelsSegment.get_traces ⟨⟨0, 3, 2⟩, [], [[], []]⟩
        ⟨[[[1, 2], [3, 4], [5, 6]]]⟩ 0 3 [0]).1 = [[1, 2], [3, 4], [5, 6]]) ∧
    ¬ (∀ row ∈ (InterpolateBadChannelsSegment.get_traces ⟨⟨0, 3, 2⟩, [], [[], []]⟩
        ⟨[[[1, 2], [3, 4], [5, 6]]]⟩ 0 3 [0]).1,
        row.length = ([0] : List Nat).length) := by
  decide

/-- C2: a pull through the interpolation segment never writes to the parent
segment's buffer — the transform happens on a private copy — so a subsequent
read of the parent over the same frame range returns the original values. -/
theorem get_traces_does_not_mutate_parent (seg : InterpolateBadChannelsSegment)
    (h : Heap) (s e : Nat) (chans : List Nat)
    (href : seg.parent_recording_segment.buf < h.cells.length) :
    ((seg.get_traces h s e chans).2).get seg.parent_recording_segment.buf =
      h.get seg.parent_recording_segment.buf ∧
    View.read (seg.get_traces h s e chans).2 (seg.parent_recording_segment.get_traces s e) =
      View.read h (seg.parent_recording_segment.get_traces s e) := by
  have hcell := get_traces_heap_preserved seg h s e chans _ href
  exact ⟨hcell, View.read_congr _ _ _ hcell⟩

theorem get_traces_does_not_mutate_parent_witness :
    ((InterpolateBadChannelsSegment.get_traces ⟨⟨0, 3, 2⟩, [1], [[1], [0]]⟩
        ⟨[[[1, 2], [3, 4], [5, 6]]]⟩ 0 3 []).2).get 0 =
      Heap.get ⟨[[[1, 2], [3, 4], [5, 6]]]⟩ 0 ∧
    View.read (InterpolateBadChannelsSegment.get_traces ⟨⟨0, 3, 2⟩, [1], [[1], [0]]⟩
        ⟨[[[1, 2], [3, 4], [5, 6]]]⟩ 0 3 []).2 (ParentSegment.get_traces ⟨0, 3, 2⟩ 0 3) =
      View.read ⟨[[[1, 2], [3, 4], [5, 6]]]⟩ (ParentSegment.get_traces ⟨0, 3, 2⟩ 0 3) :=
  get_traces_does_not_mutate_parent ⟨⟨0, 3, 2⟩, [1], [[1], [0]]⟩
    ⟨[[[1, 2], [3, 4], [5, 6]]]⟩ 0 3 [] (by decide)

/-- C9: on an unmutated chain, `get_traces` is a deterministic stateless pull:
calling it again with identical arguments (on the heap the first call left,
whose only change is the freshly allocated private copy) returns an identical
array. -/
theorem get_traces_deterministic (seg : InterpolateBadChannelsSegment)
    (h : Heap) (s e : Nat) (chans : List Nat)
    (href : seg.parent_recording_segment.buf < h.cells.length) :
    (seg.get_traces (seg.get_traces h s e chans).2 s e chans).1 =
      (seg.get_traces h s e chans).1 := by
  have hcell := get_traces_heap_preserved seg h s e chans _ href
  rw [get_traces_val, get_traces_val, View.read_congr _ _ _ hcell]

theorem get_traces_deterministic_witness :
    (InterpolateBadChannelsSegment.get_traces ⟨⟨0, 3, 2⟩, [1], [[1], [0]]⟩
      (InterpolateBadChannelsSegment.get_traces ⟨⟨0, 3, 2⟩, [1], [[1], [0]]⟩
        ⟨[[[1, 2], [3, 4], [5, 6]]]⟩ 0 3 []).2 0 3 []).1 =
    (InterpolateBadChannelsSegment.get_traces ⟨⟨0, 3, 2⟩, [1], [[1], [0]]⟩
      ⟨[[[1, 2], [3, 4], [5, 6]]]⟩ 0 3 []).1 :=
  get_traces_deterministic ⟨⟨0, 3, 2⟩, [1], [[1], [0]]⟩
    ⟨[[[1, 2], [3, 4], [5, 6]]]⟩ 0 3 [] (by decide)

/-!
## Claim C6 (shape preservation and the column transform)
-/

theorem setRowCols_nil (cols : List Nat) : ∀ (vals : List ℚ), setRowCols [] cols vals = [] := by
  induction cols with
  | nil => intro vals; simp [setRowCols]
  | cons c cs ih =>
    intro vals
    cases vals with
    | nil => simp [setRowCols]
    | cons v vs => simpa [setRowCols] using ih vs

theorem setRowCols_length (cols : List Nat) :
    ∀ (row vals : List ℚ), (setRowCols row cols vals).length = row.length := by
  induction cols with
  | nil => intro row vals; simp [setRowCols]
  | cons c cs ih =>
    intro row vals
    cases vals with
    | nil => simp [setRowCols]
    | cons v vs => simpa [setRowCols, List.length_set] using ih (row.set c v) vs

theorem setRowCols_getD_not_mem (cols : List Nat) :
    ∀ (row vals : List ℚ) (c : Nat), c ∉ cols →
      (setRowCols row cols vals).getD c 0 = row.getD c 0 := by
  induction cols with
  | nil => intro row vals c _; simp [setRowCols]
  | cons c1 cs ih =>
    intro row vals c hc
    cases vals with
    | nil => simp [setRowCols]
    | cons v vs =>
      have hne : c1 ≠ c := fun hcontra => hc (hcontra ▸ List.mem_cons_self c1 cs)
      have hcs : c ∉ cs := fun hmem => hc (List.mem_cons_of_mem _ hmem)
      simp only [setRowCols, ih (row.set c1 v) vs c hcs,
        List.getD_eq_getElem?_getD, List.getElem?_set_ne hne]

theorem setRowCols_getD_mem (cols : List Nat) :
    ∀ (row vals : List ℚ) (j : Nat), cols.Nodup → vals.length = cols.length →
      j < cols.length → cols.getD j 0 < row.length →
      (setRowCols row cols vals).getD (cols.getD j 0) 0 = vals.getD j 0 := by
  induction cols with
  | nil => intro row vals j _ _ hj _; simp at hj
  | cons c1 cs ih =>
    intro row vals j hnd hlen hj hb
    cases vals with
    | nil => simp at hlen
    | cons v vs =>
      cases j with
      | zero =>
        have hc1 : c1 ∉ cs := (List.nodup_cons.mp hnd).1
        simp only [setRowCols, List.getD_cons_zero]
        rw [setRowCols_getD_not_mem cs (row.set c1 v) vs c1 hc1]
        simp only [List.getD_cons_zero] at hb
        simp [List.getD, List.getElem?_set_self, hb]
      | succ j =>
        simp only [setRowCols, List.getD_cons_succ]
        simp only [List.getD_cons_succ] at hb
        exact ih (row.set c1 v) vs j (List.nodup_cons.mp hnd).2
          (by simpa using hlen) (by simpa using hj) (by simpa [List.length_set] using hb)

theorem setColsMat_getD (cols : List Nat) :
    ∀ (m vals : Mat), vals.length = m.length → ∀ i,
      (setColsMat m cols vals).getD i [] = setRowCols (m.getD i []) cols (vals.getD i []) := by
  intro m
  induction m with
  | nil =>
    intro vals hlen i
    have : vals = [] := List.length_eq_zero.mp hlen
    subst this
    cases cols <;> simp [setColsMat, setRowCols_nil]
  | cons row m ih =>
    intro vals hlen i
    cases vals with
    | nil => simp at hlen
    | cons vrow vals =>
      cases i with
      | zero => simp [setColsMat]
      | succ i =>
        simp only [setColsMat, List.getD_cons_succ]
        exact ih vals (by simpa using hlen) i

theorem matMul_length (A B : Mat) : (matMul A B).length = A.length := by
  simp [matMul]

theorem matMul_getD (A B : Mat) (i : Nat) (hi : i < A.length) :
    (matMul A B).getD i [] =
      (List.range (matNumCols B)).map (fun j => dot (A.getD i []) (matCol B j)) := by
  simp [matMul, List.getD, List.getElem?_map, List.getElem?_eq_getElem hi]

theorem getD_map_range (f : Nat → ℚ) (n j : Nat) (hj : j < n) :
    ((List.range n).map f).getD j 0 = f j := by
  simp [List.getD, List.getElem?_map, List.getElem?_range hj]

theorem getD_mem_of_lt (l : List Nat) (j : Nat) (hj : j < l.length) :
    l.getD j 0 ∈ l := by
  rw [List.getD_eq_getElem l 0 hj]
  exact List.getElem_mem hj

/-- C6: the output of a pull through the interpolation stage has exactly the
shape of the untransformed parent traces; the column at the j-th bad channel
index equals column j of the matrix product of the original traces with the
precomputed weight matrix, and every other column passes through unchanged. -/
theorem get_traces_shape_and_transform (seg : InterpolateBadChannelsSegment)
    (h : Heap) (s e : Nat) (chans : List Nat) (C : Nat)
    (hrect : ∀ row ∈ View.read h (seg.parent_recording_segment.get_traces s e), row.length = C)
    (hWlen : seg.weights.length = C)
    (hWrows : ∀ row ∈ seg.weights, row.length = seg.bad_channel_indexes.length)
    (hnodup : seg.bad_channel_indexes.Nodup)
    (hbad : ∀ b ∈ seg.bad_channel_indexes, b < C) :
    ((seg.get_traces h s e chans).1.length =
        (View.read h (seg.parent_recording_segment.get_traces s e)).length ∧
      ∀ row ∈ (seg.get_traces h s e chans).1, row.length = C) ∧
    (∀ i j, i < (View.read h (seg.parent_recording_segment.get_traces s e)).length →
      j < seg.bad_channel_indexes.length →
      ((seg.get_traces h s e chans).1.getD i []).getD
          (seg.bad_channel_indexes.getD j 0) 0 =
        dot ((View.read h (seg.parent_recording_segment.get_traces s e)).getD i [])
          (matCol seg.weights j)) ∧
    (∀ i c, c < C → c ∉ seg.bad_channel_indexes →
      ((seg.get_traces h s e chans).1.getD i []).getD c 0 =
        ((View.read h (seg.parent_recording_segment.get_traces s e)).getD i []).getD c 0) := by
  set T := View.read h (seg.parent_recording_segment.get_traces s e) with hTdef
  have hout : (seg.get_traces h s e chans).1 =
      setColsMat T seg.bad_channel_indexes (matMul T seg.weights) :=
    get_traces_val seg h s e chans
  have hlenP : (matMul T seg.weights).length = T.length := matMul_length T seg.weights
  have hBcols : matNumCols seg.weights = seg.bad_channel_indexes.length := by
    cases hW : seg.weights with
    | nil =>
      have hC : C = 0 := by rw [hW] at hWlen; simpa using hWlen.symm
      have hnil : seg.bad_channel_indexes = [] := by
        cases hB : seg.bad_channel_indexes with
        | nil => rfl
        | cons b bs =>
          have := hbad b (hB ▸ List.mem_cons_self b bs)
          omega
      simp [matNumCols, hnil]
    | cons w0 ws =>
      have : w0.length = seg.bad_channel_indexes.length :=
        hWrows w0 (hW ▸ List.mem_cons_self w0 ws)
      simpa [matNumCols] using this
  have hrowi : ∀ i, (seg.get_traces h s e chans).1.getD i [] =
      setRowCols (T.getD i []) seg.bad_channel_indexes ((matMul T seg.weights).getD i []) := by
    intro i
    rw [hout, setColsMat_getD _ _ _ hlenP i]
  refine ⟨⟨?_, ?_⟩, ?_, ?_⟩
  · rw [hout, setColsMat_length]
  · intro row hrow
    rw [hout] at hrow
    obtain ⟨i, hi, hieq⟩ := List.mem_iff_getElem.mp hrow
    rw [setColsMat_length] at hi
    have : row = (seg.get_traces h s e chans).1.getD i [] := by
      rw [hout, List.getD_eq_getElem _ _ (by rwa [setColsMat_length])]
      exact hieq.symm
    rw [this, hrowi i, setRowCols_length]
    exact hrect _ (List.getD_eq_getElem T [] hi ▸ List.getElem_mem hi)
  · intro i j hi hj
    rw [hrowi i, matMul_getD T seg.weights i hi]
    have hvlen : ((List.range (matNumCols seg.weights)).map
        (fun j => dot (T.getD i []) (matCol seg.weights j))).length =
        seg.bad_channel_indexes.length := by
      simp [hBcols]
    have hblt : seg.bad_channel_indexes.getD j 0 < (T.getD i []).length := by
      have hmem := getD_mem_of_lt seg.bad_channel_indexes j hj
      have := hbad _ hmem
      have hTi : (T.getD i []).length = C :=
        hrect _ (List.getD_eq_getElem T [] hi ▸ List.getElem_mem hi)
      omega
    rw [setRowCols_getD_mem _ _ _ j hnodup hvlen hj hblt,
      getD_map_range _ _ j (by omega)]
  · intro i c _ hc
    rw [hrowi i, setRowCols_getD_not_mem _ _ _ c hc]

theorem get_traces_shape_and_transform_witness :
    ((InterpolateBadChannelsSegment.get_traces ⟨⟨0, 3, 2⟩, [1], [[1], [0]]⟩
        ⟨[[[1, 2], [3, 4], [5, 6]]]⟩ 0 3 []).1.getD 0 []).getD 1 0 =
      dot ((View.read ⟨[[[1, 2], [3, 4], [5, 6]]]⟩
          (ParentSegment.get_traces ⟨0, 3, 2⟩ 0 3)).getD 0 [])
        (matCol [[1], [0]] 0) :=
  (get_traces_shape_and_transform ⟨⟨0, 3, 2⟩, [1], [[1], [0]]⟩
      ⟨[[[1, 2], [3, 4], [5, 6]]]⟩ 0 3 [] 2 (by decide) (by decide) (by decide)
      (by decide) (by decide)).2.1 0 0 (by decide) (by decide)

/-!
## Claim C3 (weight matrix shape, normalization, zero rows)
-/

theorem sum_map_filter_not_mem (bad : List Nat) (f : Nat → ℚ) :
    ∀ (l : List Nat),
      (l.map (fun c => if c ∈ bad then 0 else f c)).sum =
        ((l.filter (fun c => c ∉ bad)).map f).sum := by
  intro l
  induction l with
  | nil => simp
  | cons a l ih =>
    by_cases ha : a ∈ bad
    · simp [List.filter_cons, ha, ih]
    · simp [List.filter_cons, ha, ih]

theorem sum_map_div_const (f : Nat → ℚ) (S : ℚ) :
    ∀ (l : List Nat), (l.map (fun c => f c / S)).sum = (l.map f).sum / S := by
  intro l
  induction l with
  | nil => simp
  | cons a l ih => simp [ih, add_div]

theorem goodKernelSum_pos (κ : ℚ × ℚ → ℚ × ℚ → ℚ) (ps : List (ℚ × ℚ)) (bad : List Nat)
    (b : Nat) (hκ : ∀ x y, 0 < κ x y) (hgood : ∃ g, g < ps.length ∧ g ∉ bad) :
    0 < goodKernelSum κ ps bad b := by
  obtain ⟨g, hgl, hgb⟩ := hgood
  have hmem : g ∈ (List.range ps.length).filter (fun g => g ∉ bad) := by
    simp [List.mem_filter, List.mem_range, hgl, hgb]
  apply List.sum_pos
  · intro a ha
    obtain ⟨c, _, rfl⟩ := List.mem_map.mp ha
    exact hκ _ _
  · exact List.ne_nil_of_mem (List.mem_map_of_mem _ hmem)

/-- C3 (amended): the weight matrix has shape (num_channels, num_bad_channels);
for every bad channel (each column j), the weights sum to 1 — the sum runs over
the good channels because the rows of the bad channels themselves (the
interpolation targets, excluded as sources) are zero.  Holds for any strictly
positive kernel, in particular the spec's Gaussian kernel, provided at least
one good channel exists. -/
theorem kriging_weights_spec (κ : ℚ × ℚ → ℚ × ℚ → ℚ) (ps : List (ℚ × ℚ)) (bad : List Nat)
    (hκ : ∀ x y, 0 < κ x y) (hgood : ∃ g, g < ps.length ∧ g ∉ bad) :
    ((get_kriging_bad_channel_weights κ ps bad).length = ps.length ∧
      ∀ row ∈ get_kriging_bad_channel_weights κ ps bad, row.length = bad.length) ∧
    (∀ j, j < bad.length →
      (matCol (get_kriging_bad_channel_weights κ ps bad) j).sum = 1) ∧
    (∀ c ∈ bad, c < ps.length →
      (get_kriging_bad_channel_weights κ ps bad).getD c [] =
        List.replicate bad.length 0) := by
  refine ⟨⟨by simp [get_kriging_bad_channel_weights], ?_⟩, ?_, ?_⟩
  · intro row hrow
    obtain ⟨c, _, rfl⟩ := List.mem_map.mp hrow
    simp
  · intro j hj
    set bj := bad.getD j 0 with hbj
    have hcol : matCol (get_kriging_bad_channel_weights κ ps bad) j =
        (List.range ps.length).map (fun c => if c ∈ bad then 0
          else κ (ps.getD c (0, 0)) (ps.getD bj (0, 0)) / goodKernelSum κ ps bad bj) := by
      simp only [matCol, get_kriging_bad_channel_weights, List.map_map]
      refine List.map_congr_left ?_
      intro c _
      by_cases hc : c ∈ bad
      · simp [hc, List.getD_eq_getElem?_getD, List.getElem?_map,
          List.getElem?_eq_getElem hj]
      · simp [hc, List.getD_eq_getElem?_getD, List.getElem?_map,
          List.getElem?_eq_getElem hj, hbj, List.getD_eq_getElem bad 0 hj]
    have hSpos := goodKernelSum_pos κ ps bad bj hκ hgood
    rw [hcol, sum_map_filter_not_mem bad
        (fun c => κ (ps.getD c (0, 0)) (ps.getD bj (0, 0)) / goodKernelSum κ ps bad bj),
      sum_map_div_const (fun c => κ (ps.getD c (0, 0)) (ps.getD bj (0, 0)))
        (goodKernelSum κ ps bad bj)]
    exact div_self (ne_of_gt hSpos)
  · intro c hc hlt
    have : (get_kriging_bad_channel_weights κ ps bad).getD c [] =
        bad.map (fun b => if c ∈ bad then 0
          else κ (ps.getD c (0, 0)) (ps.getD b (0, 0)) /
            goodKernelSum κ ps bad b) := by
      simp [get_kriging_bad_channel_weights, List.getD_eq_getElem?_getD,
        List.getElem?_map, List.getElem?_range hlt]
    rw [this]
    simp [hc, List.map_const']

theorem kriging_weights_spec_witness :
    (matCol (get_kriging_bad_channel_weights (fun _ _ => 1) [(0, 0), (0, 20)] [1]) 0).sum = 1 :=
  (kriging_weights_spec (fun _ _ => 1) [(0, 0), (0, 20)] [1]
    (fun _ _ => one_pos) ⟨0, by decide, by decide⟩).2.1 0 (by decide)

/-- C3 counterexample: the claim as stated requires zero rows for the channels
that are NOT bad-channel targets; on two channels with channel 1 bad, channel 0
is not a target yet its weight row is [1] (it is the sole interpolation
source), so the claim as stated is false — the zero rows are exactly the bad
channels themselves. -/
theorem kriging_weights_nonbad_rows_not_zero :
    ((0 : Nat) ∉ ([1] : List Nat)) ∧
    (get_kriging_bad_channel_weights (fun _ _ => 1) [(0, 0), (0, 20)] [1]).getD 0 [] ≠
      List.replicate ([1] : List Nat).length (0 : ℚ) ∧
    get_kriging_bad_channel_weights (fun _ _ => 1) [(0, 0), (0, 20)] [1] = [[1], [0]] := by
  have heval : get_kriging_bad_channel_weights (fun _ _ => 1) [(0, 0), (0, 20)] [1] =
      [[1], [0]] := by
    simp [get_kriging_bad_channel_weights, goodKernelSum, List.range_succ]
  refine ⟨by decide, ?_, heval⟩
  rw [heval]
  decide

/-!
## Claims C4, C5, C10 (construction of the stage)
-/

theorem uniqueSorted_const (g : ℚ) :
    ∀ (xs : List ℚ), xs ≠ [] → (∀ v ∈ xs, v = g) → uniqueSorted xs = [g] := by
  intro xs
  induction xs with
  | nil => intro h _; exact absurd rfl h
  | cons x xs ih =>
    intro _ hall
    have hx : x = g := hall x (List.mem_cons_self x xs)
    cases hxs : xs with
    | nil => simp [uniqueSorted, insertUnique, hx]
    | cons y ys =>
      have htail : uniqueSorted xs = [g] := by
        refine ih (by simp [hxs]) ?_
        intro v hv
        exact hall v (List.mem_cons_of_mem _ hv)
      rw [hxs] at htail
      have : uniqueSorted (x :: y :: ys) = insertUnique x (uniqueSorted (y :: ys)) := rfl
      rw [this, htail, hx]
      simp [insertUnique]

theorem modeOf_const (xs : List ℚ) (g : ℚ) (hne : xs ≠ []) (hall : ∀ v ∈ xs, v = g) :
    modeOf xs = g := by
  simp [modeOf, uniqueSorted_const g xs hne hall, modeAux]

/-- C4: with `sigma_um=None`, construction sets `sigma_um` to the statistical
mode of the differences between consecutive distinct (deduplicated, sorted)
y-coordinates of the probe contacts; in particular, when every such gap is the
regular 20 µm pitch, the fallback sigma is 20. -/
theorem init_sigma_default (κ : ℚ × ℚ → ℚ × ℚ → ℚ) (recording : Recording)
    (r : Nat) (probe : Probe) (p : ℚ) (ih : IdxHeap)
    (hprobe : recording.probe = some probe) (hunits : probe.si_units = "um") :
    ∃ stage, (interpolate_bad_channels_init κ recording (.ndarray r) none p ih).1 = .ok stage ∧
      stage.sigma_um = get_recommended_sigma_um probe.contact_positions ∧
      ((diffList (uniqueSorted (probe.contact_positions.map Prod.snd)) ≠ [] ∧
          ∀ g ∈ diffList (uniqueSorted (probe.contact_positions.map Prod.snd)), g = 20) →
        stage.sigma_um = 20) := by
  have hred : (interpolate_bad_channels_init κ recording (.ndarray r) none p ih).1 =
      .ok ⟨r, get_recommended_sigma_um probe.contact_positions, p,
        get_kriging_bad_channel_weights κ probe.contact_positions ((ih.get r).data),
        recording.recording_segments.map
          (fun ps => InterpolateBadChannelsSegment.mk ps ((ih.get r).data)
            (get_kriging_bad_channel_weights κ probe.contact_positions ((ih.get r).data)))⟩ := by
    simp [interpolate_bad_channels_init, check_inputs, hprobe, hunits]
  refine ⟨_, hred, rfl, ?_⟩
  rintro ⟨hne, hall⟩
  show get_recommended_sigma_um probe.contact_positions = 20
  unfold get_recommended_sigma_um
  exact modeOf_const _ 20 hne hall

theorem init_sigma_default_witness :
    (interpolate_bad_channels_init (fun _ _ => 1)
        ⟨some ⟨[(0, 0), (0, 20), (0, 40), (0, 60)], "um"⟩, []⟩
        (.ndarray 0) none (13/10) ⟨[⟨[3], true⟩]⟩).1.map InterpolateBadChannels.sigma_um =
      .ok 20 := by
  obtain ⟨stage, heq, _, h20⟩ := init_sigma_default (fun _ _ => 1)
    ⟨some ⟨[(0, 0), (0, 20), (0, 40), (0, 60)], "um"⟩, []⟩ 0
    ⟨[(0, 0), (0, 20), (0, 40), (0, 60)], "um"⟩ (13/10) ⟨[⟨[3], true⟩]⟩ rfl rfl
  have hd : diffList (uniqueSorted ([0, 20, 40, 60] : List ℚ)) = [20, 20, 20] := by
    norm_num [uniqueSorted, insertUnique, diffList]
  rw [heq]
  have hs := h20 ⟨by simp [hd], by simp [hd]⟩
  simp [Except.map, hs]

/-- C5: construction fails with a TypeError when the bad-channel list is not a
numpy array, with a ValueError when no probe is attached, and with a
NotImplementedError when the probe units are not micrometres; in every case it
aborts before weight computation, freezing, or segment wrapping — no stage is
produced and the heap of array objects is returned untouched. -/
theorem init_validation (κ : ℚ × ℚ → ℚ × ℚ → ℚ) (recording : Recording)
    (bad : BadChannelArg) (sigma : Option ℚ) (p : ℚ) (ih : IdxHeap) :
    (∀ xs, bad = .otherSequence xs →
      interpolate_bad_channels_init κ recording bad sigma p ih =
        (.error (.typeError "Bad channel indexes must be a numpy array."), ih)) ∧
    (∀ r, bad = .ndarray r → recording.probe = none →
      interpolate_bad_channels_init κ recording bad sigma p ih =
        (.error (.valueError
          "A probe must be attached to use bad channel interpolation. Use set_probe(...)"), ih)) ∧
    (∀ r probe, bad = .ndarray r → recording.probe = some probe → probe.si_units ≠ "um" →
      interpolate_bad_channels_init κ recording bad sigma p ih =
        (.error (.notImplementedError "Channel spacing units must be um"), ih)) := by
  refine ⟨?_, ?_, ?_⟩
  · rintro xs rfl
    simp [interpolate_bad_channels_init, check_inputs]
  · rintro r rfl hnone
    simp [interpolate_bad_channels_init, check_inputs, hnone]
  · rintro r probe rfl hsome hunits
    simp [interpolate_bad_channels_init, check_inputs, hsome, hunits]

theorem init_validation_witness :
    interpolate_bad_channels_init (fun _ _ => 1) ⟨none, []⟩ (.otherSequence [3]) none 1 ⟨[]⟩ =
      (.error (.typeError "Bad channel indexes must be a numpy array."), ⟨[]⟩) :=
  (init_validation (fun _ _ => 1) ⟨none, []⟩ (.otherSequence [3]) none 1 ⟨[]⟩).1 [3] rfl

theorem IdxHeap.get_setWriteable_self (ih : IdxHeap) (r : Nat) (w : Bool)
    (hr : r < ih.cells.length) :
    (ih.setWriteable r w).get r = ⟨(ih.get r).data, w⟩ := by
  simp [IdxHeap.get, IdxHeap.setWriteable, List.getD_eq_getElem?_getD,
    List.getElem?_set_self hr]

theorem IdxHeap.get_setWriteable_ne (ih : IdxHeap) (r r2 : Nat) (w : Bool)
    (hne : r2 ≠ r) :
    (ih.setWriteable r w).get r2 = ih.get r2 := by
  simp [IdxHeap.get, IdxHeap.setWriteable, List.getD_eq_getElem?_getD,
    List.getElem?_set_ne (Ne.symm hne)]

/-- C10: after successful construction, the caller's own bad-channel index
array object has its writeable flag cleared (data unchanged, no other object
touched), and every wrapped segment captures exactly that frozen index data,
so all subsequent pulls use the frozen index set. -/
theorem init_freezes_bad_channel_indexes (κ : ℚ × ℚ → ℚ × ℚ → ℚ)
    (recording : Recording) (r : Nat) (probe : Probe) (sigma : Option ℚ) (p : ℚ)
    (ih : IdxHeap) (hprobe : recording.probe = some probe)
    (hunits : probe.si_units = "um") (hr : r < ih.cells.length) :
    ∃ stage, (interpolate_bad_channels_init κ recording (.ndarray r) sigma p ih).1 = .ok stage ∧
      stage.bad_channel_ref = r ∧
      (((interpolate_bad_channels_init κ recording (.ndarray r) sigma p ih).2).get r).writeable
        = false ∧
      (((interpolate_bad_channels_init κ recording (.ndarray r) sigma p ih).2).get r).data
        = (ih.get r).data ∧
      (∀ r2, r2 ≠ r →
        ((interpolate_bad_channels_init κ recording (.ndarray r) sigma p ih).2).get r2
          = ih.get r2) ∧
      ∀ seg ∈ stage.recording_segments, seg.bad_channel_indexes = (ih.get r).data := by
  have hred : interpolate_bad_channels_init κ recording (.ndarray r) sigma p ih =
      (.ok ⟨r, sigma.getD (get_recommended_sigma_um probe.contact_positions), p,
        get_kriging_bad_channel_weights κ probe.contact_positions ((ih.get r).data),
        recording.recording_segments.map
          (fun ps => InterpolateBadChannelsSegment.mk ps ((ih.get r).data)
            (get_kriging_bad_channel_weights κ probe.contact_positions ((ih.get r).data)))⟩,
        ih.setWriteable r false) := by
    simp [interpolate_bad_channels_init, check_inputs, hprobe, hunits]
  refine ⟨_, by rw [hred], rfl, ?_, ?_, ?_, ?_⟩
  · rw [hred]
    simp [IdxHeap.get_setWriteable_self ih r false hr]
  · rw [hred]
    simp [IdxHeap.get_setWriteable_self ih r false hr]
  · intro r2 hne
    rw [hred]
    exact IdxHeap.get_setWriteable_ne ih r r2 false hne
  · intro seg hseg
    simp only at hseg
    obtain ⟨ps, _, rfl⟩ := List.mem_map.mp hseg
    rfl

theorem init_freezes_bad_channel_indexes_witness :
    (((interpolate_bad_channels_init (fun _ _ => 1) ⟨some ⟨[(0, 0), (0, 20)], "um"⟩, [⟨0, 5, 2⟩]⟩
        (.ndarray 0) (some 20) 1 ⟨[⟨[1], true⟩]⟩).2).get 0).writeable = false := by
  obtain ⟨stage, _, _, hflag, _⟩ := init_freezes_bad_channel_indexes (fun _ _ => 1)
    ⟨some ⟨[(0, 0), (0, 20)], "um"⟩, [⟨0, 5, 2⟩]⟩ 0 ⟨[(0, 0), (0, 20)], "um"⟩
    (some 20) 1 ⟨[⟨[1], true⟩]⟩ rfl rfl (by decide)
  exact hflag

/-!
## Claim C7 (dependency resolution of the extension engine)
-/

theorem cachedExt_iff (c : ExtCache) (n : String) :
    cachedExt c n = true ↔ ∃ p, (n, p) ∈ c := by
  simp only [cachedExt, List.any_eq_true, decide_eq_true_eq]
  constructor
  · rintro ⟨e, he, heq⟩
    exact ⟨e.2, by rwa [show (n, e.2) = e from by rw [← heq]]⟩
  · rintro ⟨p, hp⟩
    exact ⟨(n, p), hp, rfl⟩

theorem mem_insertEntry_self (c : ExtCache) (n : String) (p : Params) :
    (n, p) ∈ insertEntry c n p := by
  unfold insertEntry
  by_cases hc : cachedExt c n = true
  · rw [if_pos hc]
    obtain ⟨q, hq⟩ := (cachedExt_iff c n).mp hc
    exact List.mem_map.mpr ⟨(n, q), hq, by simp⟩
  · rw [if_neg hc]
    exact List.mem_append_right _ (List.mem_singleton.mpr rfl)

theorem mem_insertEntry_of_ne (c : ExtCache) (n : String) (p : Params) (m : String)
    (q : Params) (hmem : (m, q) ∈ c) (hne : m ≠ n) :
    (m, q) ∈ insertEntry c n p := by
  unfold insertEntry
  by_cases hc : cachedExt c n = true
  · rw [if_pos hc]
    exact List.mem_map.mpr ⟨(m, q), hmem, by simp [hne]⟩
  · rw [if_neg hc]
    exact List.mem_append_left _ hmem

theorem mem_insertEntry_cases (c : ExtCache) (n : String) (p : Params) (m : String)
    (q : Params) (h : (m, q) ∈ insertEntry c n p) :
    (m = n ∧ q = p) ∨ (m, q) ∈ c := by
  unfold insertEntry at h
  by_cases hc : cachedExt c n = true
  · rw [if_pos hc] at h
    obtain ⟨e, he, heq⟩ := List.mem_map.mp h
    by_cases he1 : e.1 = n
    · rw [if_pos he1] at heq
      exact Or.inl ⟨(Prod.mk.injEq _ _ _ _ ▸ heq.symm).1, (Prod.mk.injEq _ _ _ _ ▸ heq.symm).2⟩
    · rw [if_neg he1] at heq
      exact Or.inr (heq ▸ he)
  · rw [if_neg hc] at h
    rcases List.mem_append.mp h with h1 | h2
    · exact Or.inr h1
    · have := List.mem_singleton.mp h2
      exact Or.inl ⟨(Prod.mk.injEq _ _ _ _ ▸ this).1, (Prod.mk.injEq _ _ _ _ ▸ this).2⟩

theorem cachedExt_insertEntry_self (c : ExtCache) (n : String) (p : Params) :
    cachedExt (insertEntry c n p) n = true :=
  (cachedExt_iff _ _).mpr ⟨p, mem_insertEntry_self c n p⟩

theorem cachedExt_insertEntry_mono (c : ExtCache) (n : String) (p : Params) (m : String)
    (h : cachedExt c m = true) : cachedExt (insertEntry c n p) m = true := by
  obtain ⟨q, hq⟩ := (cachedExt_iff _ _).mp h
  by_cases hmn : m = n
  · subst hmn
    exact cachedExt_insertEntry_self c m p
  · exact (cachedExt_iff _ _).mpr ⟨q, mem_insertEntry_of_ne c n p m q hq hmn⟩

theorem compute_caches_self (reg : List ExtDef) :
    ∀ (fuel : Nat) (c : ExtCache) (n : String) (p : Params) (c2 : ExtCache),
      compute_extension reg fuel c n p = .ok c2 → cachedExt c2 n = true := by
  intro fuel c n p c2 h
  cases fuel with
  | zero => simp [compute_extension] at h
  | succ fuel =>
    simp only [compute_extension] at h
    split at h
    · exact Except.noConfusion h
    split at h
    · exact Except.noConfusion h
    injection h with h
    subst h
    exact cachedExt_insertEntry_self _ n p

theorem resolveDeps_cached_mono_of (reg : List ExtDef) (fuel : Nat)
    (hcm : ∀ c n p c2, compute_extension reg fuel c n p = .ok c2 →
      ∀ m, cachedExt c m = true → cachedExt c2 m = true) :
    ∀ (deps : List String) (c c2 : ExtCache),
      resolveDepsWith reg (fun c n p => compute_extension reg fuel c n p) c deps = .ok c2 →
      ∀ m, cachedExt c m = true → cachedExt c2 m = true := by
  intro deps
  induction deps with
  | nil =>
    intro c c2 h m hm
    simp only [resolveDepsWith] at h
    injection h with h
    subst h
    exact hm
  | cons dep rest ih =>
    intro c c2 h m hm
    simp only [resolveDepsWith] at h
    split at h
    · exact Except.noConfusion h
    next c1 hstep =>
      refine ih c1 c2 h m ?_
      unfold resolveOneDep at hstep
      by_cases hca : hasCachedAlt c dep = true
      · rw [if_pos hca] at hstep
        injection hstep with hstep
        subst hstep
        exact hm
      · rw [if_neg hca] at hstep
        unfold computeDep at hstep
        split at hstep
        · exact Except.noConfusion hstep
        next ext hfe => exact hcm c _ _ c1 hstep m hm

theorem compute_cached_mono (reg : List ExtDef) :
    ∀ (fuel : Nat) (c : ExtCache) (n : String) (p : Params) (c2 : ExtCache),
      compute_extension reg fuel c n p = .ok c2 →
      ∀ m, cachedExt c m = true → cachedExt c2 m = true := by
  intro fuel
  induction fuel with
  | zero => intro c n p c2 h; simp [compute_extension] at h
  | succ fuel ih =>
    intro c n p c2 h m hm
    simp only [compute_extension] at h
    split at h
    · exact Except.noConfusion h
    split at h
    · exact Except.noConfusion h
    next ext hfe c1 hrd =>
      injection h with h
      subst h
      exact cachedExt_insertEntry_mono c1 n p m
        (resolveDeps_cached_mono_of reg fuel ih _ c c1 hrd m hm)

/-- Invariant: every cache entry named `dn` carries the parameter set `dflt`. -/
def cacheParamsInv (dn : String) (dflt : Params) (c : ExtCache) : Prop :=
  ∀ q, (dn, q) ∈ c → q = dflt

theorem resolveDeps_paramsInv_of (reg : List ExtDef) (fuel : Nat) (dn : String) (dflt : Params)
    (hdn : ∀ ext, findExt reg dn = some ext → ext.defaults = dflt)
    (hci : ∀ c n p c2, compute_extension reg fuel c n p = .ok c2 → (n = dn → p = dflt) →
      cacheParamsInv dn dflt c → cacheParamsInv dn dflt c2) :
    ∀ (deps : List String) (c c2 : ExtCache),
      resolveDepsWith reg (fun c n p => compute_extension reg fuel c n p) c deps = .ok c2 →
      cacheParamsInv dn dflt c → cacheParamsInv dn dflt c2 := by
  intro deps
  induction deps with
  | nil =>
    intro c c2 h hin
    simp only [resolveDepsWith] at h
    injection h with h
    subst h
    exact hin
  | cons dep rest ih =>
    intro c c2 h hin
    simp only [resolveDepsWith] at h
    split at h
    · exact Except.noConfusion h
    next c1 hstep =>
      refine ih c1 c2 h ?_
      unfold resolveOneDep at hstep
      by_cases hca : hasCachedAlt c dep = true
      · rw [if_pos hca] at hstep
        injection hstep with hstep
        subst hstep
        exact hin
      · rw [if_neg hca] at hstep
        unfold computeDep at hstep
        split at hstep
        · exact Except.noConfusion hstep
        next ext hfe =>
          refine hci c _ _ c1 hstep ?_ hin
          intro hname
          exact hdn ext (hname ▸ hfe)

theorem compute_paramsInv (reg : List ExtDef) (dn : String) (dflt : Params)
    (hdn : ∀ ext, findExt reg dn = some ext → ext.defaults = dflt) :
    ∀ (fuel : Nat) (c : ExtCache) (n : String) (p : Params) (c2 : ExtCache),
      compute_extension reg fuel c n p = .ok c2 → (n = dn → p = dflt) →
      cacheParamsInv dn dflt c → cacheParamsInv dn dflt c2 := by
  intro fuel
  induction fuel with
  | zero => intro c n p c2 h _ _; simp [compute_extension] at h
  | succ fuel ih =>
    intro c n p c2 h hp hin
    simp only [compute_extension] at h
    split at h
    · exact Except.noConfusion h
    split at h
    · exact Except.noConfusion h
    next ext hfe c1 hrd =>
      injection h with h
      subst h
      have hc1 := resolveDeps_paramsInv_of reg fuel dn dflt hdn ih _ c c1 hrd hin
      intro q hq
      rcases mem_insertEntry_cases c1 n p dn q hq with ⟨hdq, hqp⟩ | hq1
      · rw [hqp]
        exact hp hdq.symm
      · exact hc1 q hq1

theorem resolveDeps_caches_dep (reg : List ExtDef) (fuel : Nat) (dn : String)
    (halts : splitBar dn = [dn])
    (hcm : ∀ c n p c2, compute_extension reg fuel c n p = .ok c2 →
      ∀ m, cachedExt c m = true → cachedExt c2 m = true) :
    ∀ (deps : List String) (c c2 : ExtCache), dn ∈ deps →
      resolveDepsWith reg (fun c n p => compute_extension reg fuel c n p) c deps = .ok c2 →
      cachedExt c2 dn = true := by
  intro deps
  induction deps with
  | nil => intro c c2 hmem _; simp at hmem
  | cons dep rest ih =>
    intro c c2 hmem h
    simp only [resolveDepsWith] at h
    split at h
    · exact Except.noConfusion h
    next c1 hstep =>
      rcases List.mem_cons.mp hmem with rfl | hmem2
      · have hmono := resolveDeps_cached_mono_of reg fuel hcm rest c1 c2 h
        unfold resolveOneDep at hstep
        by_cases hca : hasCachedAlt c dn = true
        · rw [if_pos hca] at hstep
          injection hstep with hstep
          subst hstep
          have hcc : cachedExt c dn = true := by
            unfold hasCachedAlt at hca
            rw [halts] at hca
            simpa using hca
          exact hmono dn hcc
        · rw [if_neg hca] at hstep
          unfold computeDep at hstep
          split at hstep
          · exact Except.noConfusion hstep
          next ext hfe =>
            have hfa : firstAlt dn = dn := by unfold firstAlt; rw [halts]; rfl
            have hc1 : cachedExt c1 (firstAlt dn) = true :=
              compute_caches_self reg fuel c _ _ c1 hstep
            exact hmono dn (hfa ▸ hc1)
      · exact ih c1 c2 hmem2 h

/-- C7: computing an extension whose declared dependency `dn` (a plain name)
is not yet cached leaves `dn` present in the cache afterwards, computed with
its registry-declared default parameters; and a dependency name that encodes
an "A|B" disjunction is satisfied by leaving the cache untouched when some
alternative is already cached and by computing the first listed alternative
otherwise. -/
theorem compute_dependency_resolution (reg : List ExtDef) (fuel : Nat) :
    (∀ (cache cacheF : ExtCache) (E D : ExtDef) (dn : String) (params : Params),
      findExt reg E.name = some E → findExt reg dn = some D → splitBar dn = [dn] →
      dn ∈ E.depend_on → E.name ≠ dn → cachedExt cache dn = false →
      compute_extension reg fuel cache E.name params = .ok cacheF →
      (dn, D.defaults) ∈ cacheF) ∧
    (∀ (cmp : ExtCache → String → Params → Except String ExtCache)
        (cache : ExtCache) (dep : String), hasCachedAlt cache dep = true →
      resolveOneDep reg cmp cache dep = .ok cache) ∧
    (∀ (cache c2 : ExtCache) (dep : String), hasCachedAlt cache dep = false →
      resolveOneDep reg (fun c n p => compute_extension reg fuel c n p) cache dep =
        computeDep reg (fun c n p => compute_extension reg fuel c n p) cache (firstAlt dep) ∧
      (resolveOneDep reg (fun c n p => compute_extension reg fuel c n p) cache dep = .ok c2 →
        cachedExt c2 (firstAlt dep) = true)) := by
  refine ⟨?_, ?_, ?_⟩
  · intro cache cacheF E D dn params hfind hfindD halts hdep hEne hnc hok
    cases fuel with
    | zero => simp [compute_extension] at hok
    | succ f =>
      simp only [compute_extension] at hok
      split at hok
      · exact Except.noConfusion hok
      next ext hfe =>
        rw [hfind] at hfe
        injection hfe with hextE
        subst ext
        split at hok
        · exact Except.noConfusion hok
        next c1 hrd =>
          injection hok with hok
          subst hok
          have hcached : cachedExt c1 dn = true :=
            resolveDeps_caches_dep reg f dn halts (compute_cached_mono reg f)
              E.depend_on cache c1 hdep hrd
          have hdn : ∀ ext2, findExt reg dn = some ext2 → ext2.defaults = D.defaults := by
            intro ext2 hfe2
            rw [hfindD] at hfe2
            injection hfe2 with h
            rw [← h]
          have hin0 : cacheParamsInv dn D.defaults cache := by
            intro q hq
            have := (cachedExt_iff cache dn).mpr ⟨q, hq⟩
            rw [hnc] at this
            exact Bool.noConfusion this
          have hin1 : cacheParamsInv dn D.defaults c1 :=
            resolveDeps_paramsInv_of reg f dn D.defaults hdn
              (compute_paramsInv reg dn D.defaults hdn f) E.depend_on cache c1 hrd hin0
          obtain ⟨q, hq⟩ := (cachedExt_iff c1 dn).mp hcached
          have hqd : q = D.defaults := hin1 q hq
          subst hqd
          exact mem_insertEntry_of_ne c1 E.name params dn D.defaults hq (Ne.symm hEne)
  · intro cmp cache dep hca
    unfold resolveOneDep
    rw [if_pos hca]
  · intro cache c2 dep hca
    have hca2 : ¬ hasCachedAlt cache dep = true := by simp [hca]
    constructor
    · unfold resolveOneDep
      rw [if_neg hca2]
    · intro hok
      unfold resolveOneDep at hok
      rw [if_neg hca2] at hok
      unfold computeDep at hok
      split at hok
      · exact Except.noConfusion hok
      next ext hfe => exact compute_caches_self reg fuel cache _ _ c2 hok

theorem compute_dependency_resolution_witness :
    ("D", [("k", (1 : ℚ))]) ∈ ([("D", [("k", 1)]), ("E", [("p", 2)])] : ExtCache) :=
  (compute_dependency_resolution [⟨"D", [], [("k", 1)]⟩, ⟨"E", ["D"], []⟩] 2).1
    [] [("D", [("k", 1)]), ("E", [("p", 2)])] ⟨"E", ["D"], []⟩ ⟨"D", [], [("k", 1)]⟩
    "D" [("p", 2)] (by rfl) (by rfl) (by decide) (by decide) (by decide) (by rfl) (by rfl)

/-!
## Claim C8 (select_units projection and identity law)
-/

theorem idIndex_get (l : List Nat) (hnd : l.Nodup) :
    ∀ (i : Nat), i < l.length → idIndex l (l.getD i 0) = i := by
  induction l with
  | nil => intro i hi; simp at hi
  | cons a l ih =>
    intro i hi
    cases i with
    | zero =>
      simp [idIndex, List.findIdx_cons]
    | succ i =>
      have hil : i < l.length := by simpa using hi
      have hmem : l.getD i 0 ∈ l := getD_mem_of_lt l i hil
      have hane : ¬ (a = l.getD i 0) := by
        intro hcon
        exact (List.nodup_cons.mp hnd).1 (hcon ▸ hmem)
      simp only [List.getD_cons_succ, idIndex, List.findIdx_cons]
      rw [decide_eq_false hane]
      simp only [cond_false]
      have hrec := ih (List.nodup_cons.mp hnd).2 i hil
      simp only [idIndex] at hrec
      omega

theorem map_getD_idIndex (l : List Nat) (vals : List ℚ) (hnd : l.Nodup)
    (hlen : vals.length = l.length) :
    l.map (fun uid => vals.getD (idIndex l uid) 0) = vals := by
  apply List.ext_getElem (by simpa using hlen.symm)
  intro i h1 h2
  rw [List.getElem_map]
  have hidx : idIndex l (l.getD i 0) = i := idIndex_get l hnd i (by simpa using h1)
  rw [List.getD_eq_getElem l 0 (by simpa using h1)] at hidx
  rw [hidx, List.getD_eq_getElem vals 0 h2]

/-- C8: `select_units(S)` yields an analyzer whose unit ids equal `S` in the
given order; and projecting onto all unit ids (in the original order) is the
identity — unit ids, spike table (with indices remapped) and every cached
per-unit and per-spike extension field come back element-wise equal.  The
original analyzer, a pure value, is untouched by construction. -/
theorem select_units_spec (an : Analyzer) (S : List Nat)
    (hnd : an.unit_ids.Nodup)
    (hspk : ∀ s ∈ an.spikes, s.unit_index < an.unit_ids.length)
    (hwf : ∀ e ∈ an.cache, ∀ f ∈ e.2.fields, fieldWF an f.2) :
    (select_units an S).unit_ids = S ∧
    select_units an an.unit_ids = an := by
  refine ⟨rfl, ?_⟩
  have hfilter : an.spikes.filter
      (fun s => decide (an.unit_ids.getD s.unit_index 0 ∈ an.unit_ids)) = an.spikes := by
    apply List.filter_eq_self.mpr
    intro s hs
    simp only [decide_eq_true_eq]
    exact getD_mem_of_lt _ _ (hspk s hs)
  have hremap : ∀ s ∈ an.spikes,
      ({ s with unit_index := idIndex an.unit_ids (an.unit_ids.getD s.unit_index 0) }
        : SpikeRow) = s := by
    intro s hs
    have hid : idIndex an.unit_ids (an.unit_ids.getD s.unit_index 0) = s.unit_index :=
      idIndex_get an.unit_ids hnd s.unit_index (hspk s hs)
    cases s
    simp_all
  have hspikes : (select_units an an.unit_ids).spikes = an.spikes := by
    simp only [select_units, hfilter]
    rw [List.map_congr_left hremap]
    simp
  have hps : ∀ vals : List ℚ, vals.length = an.spikes.length →
      ((an.spikes.zip vals).filter
        (fun sv => decide (an.unit_ids.getD sv.1.unit_index 0 ∈ an.unit_ids))).map
        Prod.snd = vals := by
    intro vals hlen
    have hf : (an.spikes.zip vals).filter
        (fun sv => decide (an.unit_ids.getD sv.1.unit_index 0 ∈ an.unit_ids)) =
        an.spikes.zip vals := by
      apply List.filter_eq_self.mpr
      intro sv hsv
      simp only [decide_eq_true_eq]
      exact getD_mem_of_lt _ _ (hspk sv.1 (List.of_mem_zip hsv).1)
    rw [hf]
    exact List.map_snd_zip an.spikes vals (le_of_eq hlen)
  have hproj : ∀ e ∈ an.cache, ∀ f ∈ e.2.fields,
      projectField an an.unit_ids f.2 = f.2 := by
    intro e he f hf
    have hw := hwf e he f hf
    cases hfd : f.2 with
    | perUnit vals =>
      rw [hfd] at hw
      simp only [fieldWF] at hw
      simp only [projectField]
      rw [map_getD_idIndex an.unit_ids vals hnd hw]
    | perSpike vals =>
      rw [hfd] at hw
      simp only [fieldWF] at hw
      simp only [projectField]
      rw [hps vals hw]
  have hcache : (select_units an an.unit_ids).cache = an.cache := by
    simp only [select_units]
    have hent : ∀ e ∈ an.cache,
        (e.1, ExtResult.mk (e.2.fields.map
          (fun f => (f.1, projectField an an.unit_ids f.2)))) = e := by
      intro e he
      have hfields : e.2.fields.map (fun f => (f.1, projectField an an.unit_ids f.2)) =
          e.2.fields := by
        have hfe : ∀ f ∈ e.2.fields, (f.1, projectField an an.unit_ids f.2) = f := by
          intro f hf
          rw [hproj e he f hf]
        rw [List.map_congr_left hfe]
        simp
      rw [hfields]
    rw [List.map_congr_left hent]
    simp
  obtain ⟨u, sp, ca⟩ := an
  simp only [select_units] at hspikes hcache ⊢
  rw [hspikes, hcache]

theorem select_units_spec_witness :
    (select_units ⟨[10, 20, 30], [⟨5, 0, 0⟩, ⟨7, 2, 0⟩],
        [("amps", ⟨[("x", .perUnit [1, 2, 3]), ("y", .perSpike [8, 9])]⟩)]⟩ [30, 10]).unit_ids
      = [30, 10] ∧
    select_units ⟨[10, 20, 30], [⟨5, 0, 0⟩, ⟨7, 2, 0⟩],
        [("amps", ⟨[("x", .perUnit [1, 2, 3]), ("y", .perSpike [8, 9])]⟩)]⟩ [10, 20, 30] =
      ⟨[10, 20, 30], [⟨5, 0, 0⟩, ⟨7, 2, 0⟩],
        [("amps", ⟨[("x", .perUnit [1, 2, 3]), ("y", .perSpike [8, 9])]⟩)]⟩ :=
  select_units_spec
    ⟨[10, 20, 30], [⟨5, 0, 0⟩, ⟨7, 2, 0⟩],
      [("amps", ⟨[("x", .perUnit [1, 2, 3]), ("y", .perSpike [8, 9])]⟩)]⟩ [30, 10]
    (by decide) (by decide)
    (by
      intro e he f hf
      simp only [List.mem_singleton] at he
      subst he
      rcases List.mem_cons.mp hf with rfl | hf2
      · simp [fieldWF]
      · rcases List.mem_singleton.mp hf2 with rfl
        simp [fieldWF])
